import Mathlib

/-!
Shallow embedding of the hour-estimation core of the repository
(`src/utils.js`) and proofs about it.

Modelling conventions:
* JS `Date` values are modelled as `ℤ` (milliseconds since the epoch);
  `date - lastDate` in JS yields exactly this millisecond difference.
* JS numbers appearing in the hour computation are modelled as `ℚ`
  (all arithmetic performed by the program on them is exact).
* The process-wide `config` object is modelled as an explicit `Config`
  value threaded through every function; `defaultConfig` is the literal
  object found at the top of `src/utils.js`.  The CLI entry point of the
  repository mutates the same fields before calling these functions, so
  the functions are proved for an arbitrary `Config`.
* Fallible code (a thrown `TypeError`) is modelled with `Option`.
* The in-place sort performed by `estimateHours` is modelled by explicit
  state passing: `estimateHoursRun` returns both the result and the
  contents of the caller's array after the call.
-/

/-- An author record as built by `getBranchCommits` when `commit.author()`
is not null: `{ name, email }`. -/
structure Author where
  name : String
  email : String
deriving DecidableEq

/-- A commit record as built by `getBranchCommits`:
`{ sha, date, message, author }`, where `author` is null (`none`) when the
underlying commit carries no author identity. -/
structure Commit where
  sha : String
  date : ℤ
  message : String
  author : Option Author
deriving DecidableEq

/-- The `since` / `until` configuration values: either the literal string
sentinel `'always'` (or a JS-falsy value, which the code treats the same
way) or a resolved instant. -/
inductive DateBound where
  | always : DateBound
  | instant (t : ℤ) : DateBound
deriving DecidableEq

/-- The `config` object of `src/utils.js`.  `untilDate` models the `until`
field (`until` is a reserved word in Lean). -/
structure Config where
  maxCommitDiffInMinutes : ℚ
  firstCommitAdditionInMinutes : ℚ
  since : DateBound
  untilDate : DateBound
  mergeRequest : Bool
  emailAliases : List (String × String)
  branch : Option String

/-- The literal `config` value at the top of `src/utils.js`. -/
def defaultConfig : Config :=
  { maxCommitDiffInMinutes := 60
    firstCommitAdditionInMinutes := 30
    since := DateBound.always
    untilDate := DateBound.always
    mergeRequest := true
    emailAliases := []
    branch := none }

/-- The in-place ascending sort `dates.sort(function(a, b) { return a - b; })`:
the numeric comparator sorts the dates ascending. -/
def sortDates (dates : List ℤ) : List ℤ :=
  List.insertionSort (fun a b => a ≤ b) dates

/-- The `_.forEach` loop of `estimateHours` after the first iteration has
set `lastDate`: folds over the remaining sorted dates, adding for each one
either the whole difference in minutes (same session) or the capped
`min(diff, firstCommitAdditionInMinutes)` credit. -/
def estimateLoop (cfg : Config) : ℤ → List ℤ → ℚ → ℚ
  | _, [], currentMinutes => currentMinutes
  | lastDate, date :: rest, currentMinutes =>
    let diffInMinutes : ℚ := ((date : ℚ) - (lastDate : ℚ)) / 1000 / 60
    if diffInMinutes < cfg.maxCommitDiffInMinutes then
      estimateLoop cfg date rest (currentMinutes + diffInMinutes)
    else
      estimateLoop cfg date rest
        (currentMinutes + min diffInMinutes cfg.firstCommitAdditionInMinutes)

/-- The function `estimateHours` of `src/utils.js`, with the in-place
mutation made explicit: the first component is the returned value
`currentMinutes / 60`, the second component is the contents of the
caller's `dates` array after the call (`dates.sort(...)` sorts the very
array the caller passed in; `sortedDates` is an alias of it). -/
def estimateHoursRun (cfg : Config) (dates : List ℤ) : ℚ × List ℤ :=
  let sortedDates := sortDates dates
  let currentMinutes :=
    match sortedDates with
    | [] => cfg.firstCommitAdditionInMinutes
    | first :: rest => estimateLoop cfg first rest cfg.firstCommitAdditionInMinutes
  (currentMinutes / 60, sortedDates)

/-- The value returned by `estimateHours`. -/
def estimateHours (cfg : Config) (dates : List ℤ) : ℚ :=
  (estimateHoursRun cfg dates).1

/-- Modelled from the spec (§4.5): the sum `S` accumulated over the
consecutive pairs of the ascending-sorted timestamp list — `diff` itself
below the threshold, `min(diff, firstCommitBonusMinutes)` at or above it.
Used to compare `estimateHours` against the specified formula. -/
def specSessionSum (cfg : Config) : List ℤ → ℚ
  | [] => 0
  | [_] => 0
  | a :: b :: rest =>
    (let diff : ℚ := ((b : ℚ) - (a : ℚ)) / 1000 / 60
     if diff < cfg.maxCommitDiffInMinutes then diff
     else min diff cfg.firstCommitAdditionInMinutes)
      + specSessionSum cfg (b :: rest)

lemma estimateLoop_eq_specSessionSum (cfg : Config) :
    ∀ (rest : List ℤ) (lastDate : ℤ) (acc : ℚ),
      estimateLoop cfg lastDate rest acc = acc + specSessionSum cfg (lastDate :: rest) := by
  intro rest
  induction rest with
  | nil => intro lastDate acc; simp [estimateLoop, specSessionSum]
  | cons d ds ih =>
    intro lastDate acc
    by_cases h : ((d : ℚ) - (lastDate : ℚ)) / 1000 / 60 < cfg.maxCommitDiffInMinutes
    · simp only [estimateLoop, if_pos h, ih, specSessionSum, if_pos h]
      ring
    · simp only [estimateLoop, if_neg h, ih, specSessionSum, if_neg h]
      ring

lemma sortDates_ne_nil {dates : List ℤ} (h : dates ≠ []) : sortDates dates ≠ [] := by
  intro hs
  apply h
  have hp := List.perm_insertionSort (fun a b => a ≤ b) dates
  rw [sortDates] at hs
  rw [hs] at hp
  exact (List.Perm.symm hp).eq_nil

lemma estimateHours_formula (cfg : Config) (dates : List ℤ) (h : dates ≠ []) :
    estimateHours cfg dates =
      (cfg.firstCommitAdditionInMinutes + specSessionSum cfg (sortDates dates)) / 60 := by
  have hs := sortDates_ne_nil h
  rw [estimateHours, estimateHoursRun]
  cases hd : sortDates dates with
  | nil => exact absurd hd hs
  | cons first rest =>
    simp only [hd, estimateLoop_eq_specSessionSum]

lemma estimateHours_singleton (cfg : Config) (t : ℤ) :
    estimateHours cfg [t] = cfg.firstCommitAdditionInMinutes / 60 := by
  have : sortDates [t] = [t] := by
    simp [sortDates, List.insertionSort]
  rw [estimateHours, estimateHoursRun, this]
  simp [estimateLoop]

/-- C1: for a non-empty list of timestamps, `estimateHours` returns
`(firstCommitAdditionInMinutes + S) / 60` where `S` sums, over consecutive
pairs of the ascending-sorted list, the full difference below the threshold
and `min(diff, firstCommitAdditionInMinutes)` at or above it; a singleton
list yields `firstCommitAdditionInMinutes / 60` (`1/2` hour with the
default config), and a difference of exactly the threshold (60 minutes =
3600000 ms) takes the capped branch, yielding `(30 + min 60 30)/60 = 1`. -/
theorem estimateHours_matches_spec (cfg : Config) (dates : List ℤ) (h : dates ≠ []) :
    estimateHours cfg dates =
        (cfg.firstCommitAdditionInMinutes + specSessionSum cfg (sortDates dates)) / 60
      ∧ (∀ t : ℤ, estimateHours cfg [t] = cfg.firstCommitAdditionInMinutes / 60)
      ∧ estimateHours defaultConfig [0] = 1 / 2
      ∧ estimateHours defaultConfig [0, 3600000] = 1 := by
  refine ⟨estimateHours_formula cfg dates h, estimateHours_singleton cfg, ?_, ?_⟩
  · rw [estimateHours_singleton]
    norm_num [defaultConfig]
  · have hsort : sortDates [0, 3600000] = [0, 3600000] := by
      simp [sortDates, List.insertionSort, List.orderedInsert]
    rw [estimateHours_formula defaultConfig [0, 3600000] (by simp), hsort]
    have hdiff : (((3600000 : ℤ) : ℚ) - ((0 : ℤ) : ℚ)) / 1000 / 60 = 60 := by norm_num
    simp only [specSessionSum]
    rw [hdiff]
    norm_num [defaultConfig]

theorem estimateHours_matches_spec_witness :
    ([0, 1200000] : List ℤ) ≠ []
      ∧ (estimateHours defaultConfig [0, 1200000] =
            (defaultConfig.firstCommitAdditionInMinutes
              + specSessionSum defaultConfig (sortDates [0, 1200000])) / 60
          ∧ (∀ t : ℤ,
              estimateHours defaultConfig [t] = defaultConfig.firstCommitAdditionInMinutes / 60)
          ∧ estimateHours defaultConfig [0] = 1 / 2
          ∧ estimateHours defaultConfig [0, 3600000] = 1) :=
  ⟨by simp, estimateHours_matches_spec defaultConfig [0, 1200000] (by simp)⟩

lemma sortDates_eq_of_perm {l1 l2 : List ℤ} (h : l1.Perm l2) : sortDates l1 = sortDates l2 := by
  have p1 := List.perm_insertionSort (fun a b => a ≤ b) l1
  have p2 := List.perm_insertionSort (fun a b => a ≤ b) l2
  have s1 := List.sorted_insertionSort (fun a b => a ≤ b) l1
  have s2 := List.sorted_insertionSort (fun a b => a ≤ b) l2
  exact List.eq_of_perm_of_sorted (p1.trans (h.trans p2.symm)) s1 s2

/-- C4: `estimateHours` is invariant under permutation of its input list
(the result depends only on the sorted sequence). -/
theorem estimateHours_perm_invariant (cfg : Config) (l1 l2 : List ℤ) (h : l1.Perm l2) :
    estimateHours cfg l1 = estimateHours cfg l2 := by
  rw [estimateHours, estimateHours, estimateHoursRun, estimateHoursRun,
    sortDates_eq_of_perm h]

theorem estimateHours_perm_invariant_witness :
    ([1, 0] : List ℤ).Perm [0, 1]
      ∧ estimateHours defaultConfig [1, 0] = estimateHours defaultConfig [0, 1] :=
  ⟨List.Perm.swap 0 1 [], estimateHours_perm_invariant defaultConfig [1, 0] [0, 1]
    (List.Perm.swap 0 1 [])⟩

/-- C10: `estimateHours` sorts its argument array in place — after the
call the caller's array (the second component of `estimateHoursRun`, which
models the contents of the passed-in array on return) is a permutation of
the original list arranged in ascending order. -/
theorem estimateHours_mutates_argument (cfg : Config) (dates : List ℤ) :
    ((estimateHoursRun cfg dates).2).Perm dates
      ∧ List.Sorted (fun a b => a ≤ b) (estimateHoursRun cfg dates).2 := by
  have h2 : (estimateHoursRun cfg dates).2 = sortDates dates := rfl
  rw [h2]
  exact ⟨List.perm_insertionSort (fun a b => a ≤ b) dates,
    List.sorted_insertionSort (fun a b => a ≤ b) dates⟩

/-- JS `String.prototype.startsWith`: a case-sensitive prefix test,
modelled on the character sequences of the two strings. -/
def strStartsWith (s pre : String) : Bool :=
  pre.data.isPrefixOf s.data

/-- Occurrence of `pat` as a contiguous substring of a character list.
JS `reference.match(/refs\/heads\/.*/)` is an unanchored regex search, so
it succeeds exactly when `"refs/heads/"` occurs anywhere in the string
(the `.*` tail always matches). -/
def hasSub (pat : List Char) : List Char → Bool
  | [] => pat.isEmpty
  | c :: rest => pat.isPrefixOf (c :: rest) || hasSub pat rest

/-- The reference predicate of the no-branch path of `getCommits`:
`reference.match(/refs\/heads\/.*/)`. -/
def refMatchesHeads (r : String) : Bool :=
  hasSub "refs/heads/".data r.data

/-- JS truthiness of the `branch` config value (`null` and the empty
string are falsy). -/
def jsTruthy : Option String → Bool
  | none => false
  | some s => !(s = "")

/-- The reference filtering of `getCommits`: with a truthy `branch` keep
only the reference equal to `'refs/heads/' + branch`, otherwise keep the
references matching `/refs\/heads\/.*/`. -/
def filterReferences (branch : Option String) (refs : List String) : List String :=
  if jsTruthy branch then
    refs.filter (fun r => r = "refs/heads/" ++ branch.getD "")
  else
    refs.filter refMatchesHeads

/-- The `since` test of `getBranchCommits`: keep when
`config.since === 'always' || !config.since`, else when the commit instant
is strictly after `since` (`moment(...).isAfter`). -/
def keepSince (b : DateBound) (date : ℤ) : Bool :=
  match b with
  | DateBound.always => true
  | DateBound.instant t => t < date

/-- The `until` test of `getBranchCommits`: keep when
`config.until === 'always' || !config.until`, else when the commit instant
is strictly before `until` (`moment(...).isBefore`). -/
def keepUntil (b : DateBound) (date : ℤ) : Bool :=
  match b with
  | DateBound.always => true
  | DateBound.instant t => date < t

/-- The commit collection of `getBranchCommits` for one branch: of the
records emitted by the history walk, exactly those passing both the
`since` and the `until` test are pushed. -/
def getBranchCommits (cfg : Config) (history : List Commit) : List Commit :=
  history.filter (fun c => keepSince cfg.since c.date && keepUntil cfg.untilDate c.date)

/-- The deduplication `_.uniq(commits, function(item) { return item.sha; })`
keeps the first occurrence of every key; `seen` is the set of keys already
emitted. -/
def uniqByAux {α κ : Type} [DecidableEq κ] (key : α → κ) (seen : List κ) : List α → List α
  | [] => []
  | x :: xs =>
    if key x ∈ seen then uniqByAux key seen xs
    else x :: uniqByAux key (key x :: seen) xs

/-- Lodash `_.uniq` with an iteratee: deduplicate by key, keeping the
first occurrence seen. -/
def uniqBy {α κ : Type} [DecidableEq κ] (key : α → κ) (l : List α) : List α :=
  uniqByAux key [] l

/-- The merge filter predicate of `getCommits`: a commit is removed when
`!config.mergeRequest && commit.message.startsWith('Merge ')`. -/
def mergeFilterKeep (cfg : Config) (c : Commit) : Bool :=
  if !cfg.mergeRequest && strStartsWith c.message "Merge " then false else true

/-- The commit pipeline of `getCommits`, with the repository access made
explicit: `refs` are the reference names reported by the repository and
`history r` is the sequence of commit records the history walk emits for
reference `r`.  The branch lists are concatenated (the `reduce` pushes
every commit), deduplicated by `sha`, and passed through the merge
filter. -/
def getCommits (cfg : Config) (refs : List String) (history : String → List Commit) :
    List Commit :=
  let branchRefs := filterReferences cfg.branch refs
  let allCommits :=
    (branchRefs.map (fun r => getBranchCommits cfg (history r))).foldl
      (fun acc bc => acc ++ bc) []
  let uniqueCommits := uniqBy Commit.sha allCommits
  uniqueCommits.filter (fun c => mergeFilterKeep cfg c)

/-- Modelled from the spec (§4.3): a commit is kept by the range filter
when `since` is the `always` sentinel or the commit timestamp is strictly
after the `since` instant, and `until` is `always` or the timestamp is
strictly before the `until` instant. -/
def keptBySpec (cfg : Config) (c : Commit) : Prop :=
  (cfg.since = DateBound.always
      ∨ ∃ t, cfg.since = DateBound.instant t ∧ t < c.date)
    ∧ (cfg.untilDate = DateBound.always
      ∨ ∃ t, cfg.untilDate = DateBound.instant t ∧ c.date < t)

/-- A commit sitting exactly on a configured boundary instant. -/
def boundaryCommit : Commit :=
  { sha := "bd", date := 1000, message := "msg", author := some { name := "A", email := "a@x" } }

/-- The default config with `since` set to the instant of `boundaryCommit`. -/
def sinceBoundaryConfig : Config :=
  { defaultConfig with since := DateBound.instant 1000 }

/-- The default config with `until` set to the instant of `boundaryCommit`. -/
def untilBoundaryConfig : Config :=
  { defaultConfig with untilDate := DateBound.instant 1000 }

lemma keepSince_iff (b : DateBound) (d : ℤ) :
    keepSince b d = true ↔ (b = DateBound.always ∨ ∃ t, b = DateBound.instant t ∧ t < d) := by
  cases b with
  | always => simp [keepSince]
  | instant t => simp [keepSince]

lemma keepUntil_iff (b : DateBound) (d : ℤ) :
    keepUntil b d = true ↔ (b = DateBound.always ∨ ∃ t, b = DateBound.instant t ∧ d < t) := by
  cases b with
  | always => simp [keepUntil]
  | instant t => simp [keepUntil]

/-- C6: the since/until range filter keeps a commit exactly when `since`
is `always` or the timestamp is strictly after the `since` instant, and
`until` is `always` or the timestamp is strictly before the `until`
instant; a commit timestamped exactly at the `since` instant is excluded,
and one timestamped exactly at the `until` instant is excluded. -/
theorem sinceUntil_strictly_exclusive :
    (∀ (cfg : Config) (history : List Commit) (c : Commit),
        c ∈ getBranchCommits cfg history ↔ c ∈ history ∧ keptBySpec cfg c)
      ∧ getBranchCommits sinceBoundaryConfig [boundaryCommit] = []
      ∧ getBranchCommits untilBoundaryConfig [boundaryCommit] = [] := by
  refine ⟨?_, ?_, ?_⟩
  · intro cfg history c
    rw [getBranchCommits, List.mem_filter, Bool.and_eq_true, keepSince_iff, keepUntil_iff]
    exact Iff.rfl
  · simp [getBranchCommits, sinceBoundaryConfig, defaultConfig, boundaryCommit,
      keepSince, keepUntil]
  · simp [getBranchCommits, untilBoundaryConfig, defaultConfig, boundaryCommit,
      keepSince, keepUntil]

/-- The default config with merge-commit inclusion disabled
(`mergeRequest: false`). -/
def noMergeConfig : Config :=
  { defaultConfig with mergeRequest := false }

/-- A commit whose message carries the literal `"Merge "` prefix. -/
def mergeCommitX : Commit :=
  { sha := "m1", date := 0, message := "Merge branch x"
    author := some { name := "M", email := "m@x" } }

/-- A commit whose message starts with lowercase `"merge "`. -/
def lowercaseMergeCommit : Commit :=
  { sha := "m2", date := 0, message := "merge fix"
    author := some { name := "M", email := "m@x" } }

/-- C7: with merge inclusion disabled the merge filter drops a commit iff
its message starts with the literal, case-sensitive prefix `"Merge "`;
with inclusion enabled nothing is dropped; a lowercase `"merge fix"`
message is never dropped under either setting. -/
theorem merge_filter_prefix :
    (∀ (cfg : Config) (c : Commit),
        mergeFilterKeep cfg c = false
          ↔ cfg.mergeRequest = false ∧ strStartsWith c.message "Merge " = true)
      ∧ mergeFilterKeep noMergeConfig mergeCommitX = false
      ∧ mergeFilterKeep defaultConfig mergeCommitX = true
      ∧ mergeFilterKeep noMergeConfig lowercaseMergeCommit = true
      ∧ mergeFilterKeep defaultConfig lowercaseMergeCommit = true := by
  refine ⟨?_, by decide, by decide, by decide, by decide⟩
  intro cfg c
  rw [mergeFilterKeep]
  cases hm : cfg.mergeRequest with
  | false =>
    cases hs : strStartsWith c.message "Merge " with
    | false => simp [hs]
    | true => simp [hs]
  | true => simp

lemma find?_eq_filter_head? {α : Type} (p : α → Bool) :
    ∀ l : List α, l.find? p = (l.filter p).head? := by
  intro l
  induction l with
  | nil => rfl
  | cons x xs ih =>
    cases h : p x with
    | true => rw [List.find?_cons_of_pos _ h, List.filter_cons_of_pos h, List.head?_cons]
    | false =>
      rw [List.find?_cons_of_neg _ (by simp [h]), List.filter_cons_of_neg (by simp [h]), ih]

lemma uniqByAux_filter_mem {α κ : Type} [DecidableEq κ] (key : α → κ) (k : κ) :
    ∀ (l : List α) (seen : List κ), k ∈ seen →
      (uniqByAux key seen l).filter (fun x => key x = k) = [] := by
  intro l
  induction l with
  | nil => intro seen _; rfl
  | cons x xs ih =>
    intro seen hk
    rw [uniqByAux]
    by_cases hx : key x ∈ seen
    · rw [if_pos hx]
      exact ih seen hk
    · rw [if_neg hx]
      have hxk : ¬ key x = k := fun he => hx (he ▸ hk)
      rw [List.filter_cons_of_neg (by simpa using hxk)]
      exact ih (key x :: seen) (List.mem_cons_of_mem _ hk)

lemma uniqByAux_filter_not_mem {α κ : Type} [DecidableEq κ] (key : α → κ) (k : κ) :
    ∀ (l : List α) (seen : List κ), k ∉ seen →
      (uniqByAux key seen l).filter (fun x => key x = k)
        = (l.find? (fun x => key x = k)).toList := by
  intro l
  induction l with
  | nil => intro seen _; rfl
  | cons x xs ih =>
    intro seen hk
    rw [uniqByAux]
    by_cases hx : key x ∈ seen
    · rw [if_pos hx]
      have hxk : ¬ key x = k := fun he => hk (he ▸ hx)
      rw [List.find?_cons_of_neg _ (by simpa using hxk)]
      exact ih seen hk
    · rw [if_neg hx]
      by_cases hxk : key x = k
      · rw [List.filter_cons_of_pos (by simpa using hxk),
          List.find?_cons_of_pos _ (by simpa using hxk)]
        have : (uniqByAux key (key x :: seen) xs).filter (fun y => key y = k) = [] :=
          uniqByAux_filter_mem key k xs (key x :: seen) (by rw [hxk]; exact List.mem_cons_self _ _)
        rw [this]
        rfl
      · rw [List.filter_cons_of_neg (by simpa using hxk),
          List.find?_cons_of_neg _ (by simpa using hxk)]
        exact ih (key x :: seen) (by
          intro hmem
          rcases List.mem_cons.mp hmem with h | h
          · exact hxk h.symm
          · exact hk h)

lemma uniqBy_filter_eq {α κ : Type} [DecidableEq κ] (key : α → κ) (k : κ) (l : List α) :
    (uniqBy key l).filter (fun x => key x = k) = (l.find? (fun x => key x = k)).toList := by
  rw [uniqBy]
  exact uniqByAux_filter_not_mem key k l [] (List.not_mem_nil k)

/-- C5: deduplication by commit id keeps the first occurrence seen — in
`uniqBy Commit.sha` every present id appears exactly once, and the record
kept for an id is the first record carrying that id in the concatenated
input (its `find?` result). -/
theorem dedup_keeps_first_occurrence (l : List Commit) (c : Commit) (h : c ∈ l) :
    ((uniqBy Commit.sha l).filter (fun d => d.sha = c.sha)).length = 1
      ∧ (uniqBy Commit.sha l).find? (fun d => d.sha = c.sha)
          = l.find? (fun d => d.sha = c.sha) := by
  have hfind : ∃ d, l.find? (fun d => d.sha = c.sha) = some d := by
    rw [Option.isSome_iff_exists.symm, List.find?_isSome]
    exact ⟨c, h, by simp⟩
  obtain ⟨d, hd⟩ := hfind
  have hfilter := uniqBy_filter_eq Commit.sha c.sha l
  rw [hd] at hfilter
  constructor
  · rw [hfilter]; rfl
  · rw [find?_eq_filter_head?, hfilter, hd]
    rfl

/-- Two records sharing an id, the second differing in content, plus an
unrelated record: input for the deduplication witness. -/
def dupA : Commit := { sha := "s1", date := 0, message := "first", author := none }

/-- A record carrying the same id as `dupA` but different content. -/
def dupB : Commit := { sha := "s1", date := 5, message := "second", author := none }

/-- A record with a distinct id. -/
def dupC : Commit := { sha := "s2", date := 9, message := "other", author := none }

theorem dedup_keeps_first_occurrence_witness :
    dupB ∈ [dupA, dupB, dupC]
      ∧ (((uniqBy Commit.sha [dupA, dupB, dupC]).filter
            (fun d => d.sha = dupB.sha)).length = 1
        ∧ (uniqBy Commit.sha [dupA, dupB, dupC]).find? (fun d => d.sha = dupB.sha)
            = [dupA, dupB, dupC].find? (fun d => d.sha = dupB.sha)) :=
  ⟨by decide, dedup_keeps_first_occurrence [dupA, dupB, dupC] dupB (by decide)⟩

/-- Lodash `_.groupBy`: partition a list by a key function, keys in order
of first occurrence, each group holding its members in encounter order. -/
def groupByKey {α κ : Type} [DecidableEq κ] (key : α → κ) : List α → List (κ × List α)
  | [] => []
  | a :: as =>
    (key a, a :: as.filter (fun b => key b = key a))
      :: groupByKey key (as.filter (fun b => ¬ key b = key a))
termination_by l => l.length
decreasing_by
  simp only [List.length_cons]
  exact Nat.lt_succ_of_le (List.length_filter_le _ _)

/-- The grouping key of `extractData`:
`let email = commit.author.email || 'unknown'` followed by the alias
lookup.  Reading `.email` on a null author throws a `TypeError`, modelled
as `none`; an author whose email is the empty string (JS-falsy) falls back
to the sentinel `'unknown'`; the alias table is consulted on the resulting
string. -/
def keyOf (cfg : Config) (c : Commit) : Option String :=
  match c.author with
  | none => none
  | some a =>
    let email := if a.email = "" then "unknown" else a.email
    match (cfg.emailAliases.find? (fun p => p.1 = email)).map Prod.snd with
    | some canonical => some canonical
    | none => some email

/-- Whether the grouping key evaluates without throwing on every commit of
the list — `_.groupBy` runs the key callback on each element, so
`extractData` completes the grouping exactly when this holds. -/
def allKeysDefined (cfg : Config) (commits : List Commit) : Bool :=
  commits.all (fun c => (keyOf cfg c).isSome)

/-- Total version of the grouping key, used to form the groups once
`allKeysDefined` has ruled the `none` case out (the default is never
reached then). -/
def keyOfD (cfg : Config) (c : Commit) : String :=
  (keyOf cfg c).getD "unknown"

/-- The display name `authorCommits[0].author.name` of a group.  The
defaults model unreachable branches: groups are non-empty by construction,
and a null author has already made the grouping throw. -/
def firstAuthorName (commits : List Commit) : String :=
  match commits with
  | [] => ""
  | c :: _ =>
    match c.author with
    | some a => a.name
    | none => ""

/-- One element of the `authorWorks` array of `extractData`. -/
structure AuthorWork where
  email : String
  name : String
  hours : ℚ
  commits : ℕ
deriving DecidableEq

/-- A per-author value of the report object (`_.omit(authorWork, 'email')`). -/
structure AuthorEntry where
  name : String
  hours : ℚ
  commits : ℕ
deriving DecidableEq

/-- The trailing `total` entry of the report object. -/
structure TotalEntry where
  hours : ℚ
  commits : ℕ
deriving DecidableEq

/-- The `sortedWork` object of `extractData` as an explicit ordered
structure: the per-author `(email, entry)` pairs in insertion order
(ascending hours) followed by the `total` entry. -/
structure Report where
  authors : List (String × AuthorEntry)
  total : TotalEntry
deriving DecidableEq

/-- The `authorWorks` array of `extractData`: one record per group of
`_.groupBy(commits, ...)`, holding the group email, the first commit's
author name, the estimated hours over the group's dates, and the group
size. -/
def authorWorksOf (cfg : Config) (commits : List Commit) : List AuthorWork :=
  (groupByKey (keyOfD cfg) commits).map (fun g =>
    { email := g.1
      name := firstAuthorName g.2
      hours := estimateHours cfg (g.2.map Commit.date)
      commits := g.2.length })

/-- The `sortedWork` pairs of `extractData`: the author works sorted
ascending by hours (`_.sortBy(authorWorks, 'hours')`), each keyed by its
email with the email dropped from the value (`_.omit`). -/
def sortedWorkOf (cfg : Config) (commits : List Commit) : List (String × AuthorEntry) :=
  (List.insertionSort (fun x y => x.hours ≤ y.hours) (authorWorksOf cfg commits)).map
    (fun aw => (aw.email, { name := aw.name, hours := aw.hours, commits := aw.commits }))

/-- The completed `sortedWork` object: the per-author pairs plus the
`total` entry, whose `hours` is the `_.reduce` fold over the per-author
entries and whose `commits` is `commits.length`. -/
def reportOf (cfg : Config) (commits : List Commit) : Report :=
  { authors := sortedWorkOf cfg commits
    total :=
      { hours := (sortedWorkOf cfg commits).foldl (fun sum p => sum + p.2.hours) 0
        commits := commits.length } }

/-- The body of `extractData` after `getCommits` has delivered the commit
list: build `sortedWork` as above.  `none` models the `TypeError` thrown
by the grouping callback on a commit with a null author, which rejects
the promise and yields no report. -/
def buildReport (cfg : Config) (commits : List Commit) : Option Report :=
  if allKeysDefined cfg commits then some (reportOf cfg commits) else none

/-- The value `extractData` resolves to: line 67 of `src/utils.js` returns
`sortedWork.total.hours`, the total-hours number alone. -/
def extractDataFromCommits (cfg : Config) (commits : List Commit) : Option ℚ :=
  (buildReport cfg commits).map (fun r => r.total.hours)

lemma groupByKey_props_aux {α κ : Type} [DecidableEq κ] (key : α → κ) :
    ∀ (n : ℕ) (l : List α), l.length ≤ n → ∀ p ∈ groupByKey key l,
      (∃ a ∈ l, key a = p.1) ∧ p.2 = l.filter (fun b => key b = p.1) := by
  intro n
  induction n with
  | zero =>
    intro l hl p hp
    rw [List.eq_nil_of_length_eq_zero (Nat.le_zero.mp hl)] at hp
    simp [groupByKey] at hp
  | succ n ih =>
    intro l hl p hp
    cases l with
    | nil => simp [groupByKey] at hp
    | cons a as =>
      rw [groupByKey] at hp
      rcases List.mem_cons.mp hp with hhead | htail
      · subst hhead
        refine ⟨⟨a, List.mem_cons_self a as, rfl⟩, ?_⟩
        rw [List.filter_cons_of_pos (by simp)]
      · have hlen : (as.filter (fun b => ¬ key b = key a)).length ≤ n := by
          calc (as.filter (fun b => ¬ key b = key a)).length
              ≤ as.length := List.length_filter_le _ _
            _ ≤ n := by simpa [List.length_cons] using hl
        obtain ⟨⟨b, hb, hbkey⟩, hgroup⟩ := ih _ hlen p htail
        have hbas : b ∈ as ∧ ¬ key b = key a := by
          simpa using List.mem_filter.mp hb
        have hne : ¬ p.1 = key a := hbkey ▸ hbas.2
        refine ⟨⟨b, List.mem_cons_of_mem a hbas.1, hbkey⟩, ?_⟩
        rw [hgroup, List.filter_filter, List.filter_cons_of_neg (by simpa using fun he => hne he.symm)]
        refine List.filter_congr ?_
        intro c _
        by_cases hc : key c = p.1
        · have hca : ¬ key c = key a := fun he => hne (hc ▸ he)
          simp [hc, hca, hne]
        · simp [hc]

lemma groupByKey_mem_group {α κ : Type} [DecidableEq κ] (key : α → κ) (l : List α)
    (p : κ × List α) (hp : p ∈ groupByKey key l) :
    p.2 = l.filter (fun b => key b = p.1) :=
  (groupByKey_props_aux key l.length l (le_refl _) p hp).2

lemma groupByKey_key_sound {α κ : Type} [DecidableEq κ] (key : α → κ) (l : List α)
    (p : κ × List α) (hp : p ∈ groupByKey key l) :
    ∃ a ∈ l, key a = p.1 :=
  (groupByKey_props_aux key l.length l (le_refl _) p hp).1

/-- A commit record carrying no author identity at all, exactly as
`getBranchCommits` produces it when `commit.author()` is null. -/
def noAuthorCommit : Commit :=
  { sha := "n1", date := 0, message := "msg", author := none }

/-- An author present but with a JS-falsy (empty) email. -/
def emptyEmailCommit : Commit :=
  { sha := "e1", date := 0, message := "msg", author := some { name := "Eve", email := "" } }

/-- The default config extended with one email alias. -/
def aliasConfig : Config :=
  { defaultConfig with emailAliases := [("old@x", "canonical@x")] }

/-- A commit authored under the aliased raw email. -/
def aliasedCommit : Commit :=
  { sha := "al", date := 0, message := "msg", author := some { name := "Old", email := "old@x" } }

/-- C3 (divergence witness): the grouping key computation fails — rather
than yielding the sentinel `"unknown"` — on a commit with no author at
all, so `extractData` produces nothing for such input (the `groupBy`
callback throws a `TypeError` dereferencing the null author); an author
that is merely missing an email does map to `"unknown"`, and a present
alias entry rewrites the raw email. -/
theorem noAuthor_grouping_fails :
    keyOf defaultConfig noAuthorCommit = none
      ∧ buildReport defaultConfig [noAuthorCommit] = none
      ∧ extractDataFromCommits defaultConfig [noAuthorCommit] = none
      ∧ keyOf defaultConfig emptyEmailCommit = some "unknown"
      ∧ keyOf aliasConfig aliasedCommit = some "canonical@x" := by
  refine ⟨rfl, ?_, ?_, by decide, by decide⟩
  · rw [buildReport]
    have : allKeysDefined defaultConfig [noAuthorCommit] = false := by decide
    rw [this]
    rfl
  · rw [extractDataFromCommits, buildReport]
    have : allKeysDefined defaultConfig [noAuthorCommit] = false := by decide
    rw [this]
    rfl

/-- C9: with a branch restriction configured and no local branch reference
of that name present, the reference filter is empty, `getCommits` yields
the empty commit set without error, and the downstream report has zero
per-author entries and a `total` of zero hours over zero commits. -/
theorem missing_branch_empty_report (cfg : Config) (refs : List String)
    (history : String → List Commit) (b : String)
    (hb : cfg.branch = some b) (hne : b ≠ "")
    (hmiss : ∀ r ∈ refs, r ≠ "refs/heads/" ++ b) :
    getCommits cfg refs history = []
      ∧ buildReport cfg (getCommits cfg refs history)
          = some { authors := [], total := { hours := 0, commits := 0 } } := by
  have hrefs : filterReferences cfg.branch refs = [] := by
    rw [filterReferences, hb]
    have ht : jsTruthy (some b) = true := by
      simp [jsTruthy, hne]
    rw [ht]
    simp only [if_true]
    rw [List.filter_eq_nil_iff]
    intro r hr
    simpa using hmiss r hr
  have hcommits : getCommits cfg refs history = [] := by
    rw [getCommits, hrefs]
    rfl
  refine ⟨hcommits, ?_⟩
  rw [hcommits, buildReport]
  have : allKeysDefined cfg [] = true := rfl
  rw [this]
  simp only [if_true]
  simp [reportOf, sortedWorkOf, authorWorksOf, groupByKey, List.insertionSort]

/-- A reference list containing no `dev` branch: input for the C9 witness. -/
def witnessRefs : List String := ["refs/heads/master", "refs/tags/v1"]

/-- The default config restricted to the (absent) branch `dev`. -/
def devBranchConfig : Config :=
  { defaultConfig with branch := some "dev" }

theorem missing_branch_empty_report_witness :
    devBranchConfig.branch = some "dev"
      ∧ "dev" ≠ ""
      ∧ (∀ r ∈ witnessRefs, r ≠ "refs/heads/" ++ "dev")
      ∧ (getCommits devBranchConfig witnessRefs (fun _ => [])
            = []
        ∧ buildReport devBranchConfig (getCommits devBranchConfig witnessRefs (fun _ => []))
            = some { authors := [], total := { hours := 0, commits := 0 } }) :=
  ⟨rfl, by decide, by decide,
    missing_branch_empty_report devBranchConfig witnessRefs (fun _ => []) "dev" rfl
      (by decide) (by decide)⟩

lemma foldl_hours_sum :
    ∀ (l : List (String × AuthorEntry)) (a : ℚ),
      List.foldl (fun sum p => sum + p.2.hours) a l = a + (l.map (fun p => p.2.hours)).sum := by
  intro l
  induction l with
  | nil => intro a; simp
  | cons x xs ih =>
    intro a
    rw [List.foldl_cons, ih, List.map_cons, List.sum_cons]
    ring

/-- A commit authored by Alice; same timestamp and message as Bob's. -/
def aliceCommit : Commit :=
  { sha := "a1", date := 0, message := "work", author := some { name := "Alice", email := "alice@x" } }

/-- A commit authored by Bob; same timestamp and message as Alice's. -/
def bobCommit : Commit :=
  { sha := "b1", date := 0, message := "work", author := some { name := "Bob", email := "bob@x" } }

/-- C2 (counterexample): `extractData` does not hand the report back — it
returns only `sortedWork.total.hours` (line 67 of `src/utils.js`), a
projection that collapses distinct reports: a repository whose single
commit is Alice's and one whose single commit is Bob's give the caller the
same value although their aggregated reports differ. -/
theorem extractData_loses_report :
    extractDataFromCommits defaultConfig [aliceCommit]
        = extractDataFromCommits defaultConfig [bobCommit]
      ∧ buildReport defaultConfig [aliceCommit] ≠ buildReport defaultConfig [bobCommit] := by
  constructor
  · simp [extractDataFromCommits, buildReport, allKeysDefined, keyOf, keyOfD, aliceCommit,
      bobCommit, reportOf, sortedWorkOf, authorWorksOf, groupByKey, List.insertionSort,
      firstAuthorName, defaultConfig]
  · intro h
    have hk := congrArg (Option.map (fun r : Report => r.authors.map Prod.fst)) h
    simp [buildReport, allKeysDefined, keyOf, keyOfD, aliceCommit, bobCommit, reportOf,
      sortedWorkOf, authorWorksOf, groupByKey, List.insertionSort, firstAuthorName,
      defaultConfig] at hk

/-- C2 (amended): `extractData` builds the aggregated report — per-author
entries keyed by canonical email, ascending by hours, plus the trailing
`total` entry — but resolves to only the total entry's hours value, which
equals the sum of the per-author hours. -/
theorem extractData_returns_total_hours (cfg : Config) (commits : List Commit)
    (h : allKeysDefined cfg commits = true) :
    ∃ r, buildReport cfg commits = some r
      ∧ extractDataFromCommits cfg commits = some r.total.hours
      ∧ r.total.hours = (r.authors.map (fun p => p.2.hours)).sum := by
  refine ⟨reportOf cfg commits, by simp [buildReport, h], ?_, ?_⟩
  · simp [extractDataFromCommits, buildReport, h]
  · show (sortedWorkOf cfg commits).foldl (fun sum p => sum + p.2.hours) 0
        = ((sortedWorkOf cfg commits).map (fun p => p.2.hours)).sum
    rw [foldl_hours_sum, zero_add]

theorem extractData_returns_total_hours_witness :
    allKeysDefined defaultConfig [aliceCommit] = true
      ∧ ∃ r, buildReport defaultConfig [aliceCommit] = some r
        ∧ extractDataFromCommits defaultConfig [aliceCommit] = some r.total.hours
        ∧ r.total.hours = (r.authors.map (fun p => p.2.hours)).sum :=
  ⟨by decide, extractData_returns_total_hours defaultConfig [aliceCommit] (by decide)⟩

/-- C8: when the grouping succeeds, the report built over the
deduplicated, filtered commit set of `getCommits` satisfies the
aggregation invariants: each per-author entry's `commits` equals the
number of commits of the set whose canonical email is that entry's key,
the total hours equal the sum of the per-author hours (exactly, in `ℚ`),
and the total commits equal the size of the set. -/
theorem report_invariants (cfg : Config) (refs : List String)
    (history : String → List Commit)
    (h : allKeysDefined cfg (getCommits cfg refs history) = true) :
    ∃ r, buildReport cfg (getCommits cfg refs history) = some r
      ∧ (∀ p ∈ r.authors,
          p.2.commits
            = ((getCommits cfg refs history).filter
                (fun c => keyOf cfg c = some p.1)).length)
      ∧ r.total.hours = (r.authors.map (fun p => p.2.hours)).sum
      ∧ r.total.commits = (getCommits cfg refs history).length := by
  set cs := getCommits cfg refs history
  refine ⟨reportOf cfg cs, by simp [buildReport, h], ?_, ?_, rfl⟩
  · intro p hp
    have hp' : p ∈ sortedWorkOf cfg cs := hp
    rw [sortedWorkOf, List.mem_map] at hp'
    obtain ⟨aw, hawSorted, hpeq⟩ := hp'
    have hawMem : aw ∈ authorWorksOf cfg cs :=
      ((List.perm_insertionSort _ _).mem_iff).mp hawSorted
    rw [authorWorksOf, List.mem_map] at hawMem
    obtain ⟨g, hg, haweq⟩ := hawMem
    have hgrp := groupByKey_mem_group (keyOfD cfg) cs g hg
    have hall : ∀ c ∈ cs, (keyOf cfg c).isSome = true := by
      rw [allKeysDefined, List.all_eq_true] at h
      intro c hc
      simpa using h c hc
    rw [← hpeq, ← haweq]
    show g.2.length = (cs.filter (fun c => keyOf cfg c = some g.1)).length
    rw [hgrp]
    refine congrArg List.length (List.filter_congr ?_)
    intro c hc
    obtain ⟨s, hs⟩ := Option.isSome_iff_exists.mp (hall c hc)
    simp [keyOfD, hs]
  · show (sortedWorkOf cfg cs).foldl (fun sum p => sum + p.2.hours) 0
        = ((sortedWorkOf cfg cs).map (fun p => p.2.hours)).sum
    rw [foldl_hours_sum, zero_add]

theorem report_invariants_witness :
    allKeysDefined defaultConfig
        (getCommits defaultConfig ["refs/heads/master"]
          (fun _ => [aliceCommit, bobCommit])) = true
      ∧ ∃ r, buildReport defaultConfig
            (getCommits defaultConfig ["refs/heads/master"]
              (fun _ => [aliceCommit, bobCommit])) = some r
        ∧ (∀ p ∈ r.authors,
            p.2.commits
              = ((getCommits defaultConfig ["refs/heads/master"]
                    (fun _ => [aliceCommit, bobCommit])).filter
                  (fun c => keyOf defaultConfig c = some p.1)).length)
        ∧ r.total.hours = (r.authors.map (fun p => p.2.hours)).sum
        ∧ r.total.commits
            = (getCommits defaultConfig ["refs/heads/master"]
                (fun _ => [aliceCommit, bobCommit])).length :=
  ⟨by decide, report_invariants defaultConfig ["refs/heads/master"]
    (fun _ => [aliceCommit, bobCommit]) (by decide)⟩
